import Mathlib

/-!
Shallow embedding of the core utilities of the AI quiz generator
(`app.py`): text extraction with PDF-parser fallback, extractive
summarization, frequency-based keyword extraction, the context gate,
keyword-path prompt construction, and the quiz-client error handling.

Text is modelled as `List Char` (Python code points); external
collaborators (the two PDF parsers, the generative-text service) are
modelled as explicit fallible inputs (`Except`), matching the
try/except structure of the source.
-/

/-- ASCII lowercasing of one character, as Python `str.lower` acts on ASCII. -/
def pyToLower (c : Char) : Char :=
  if 'A' ≤ c ∧ c ≤ 'Z' then Char.ofNat (c.toNat + 32) else c

/-- Whitespace characters recognized by Python `str.split()` / `str.strip()`. -/
def pyIsSpace (c : Char) : Bool :=
  c == ' ' || c == '\t' || c == '\n' || c == '\x0B' || c == '\x0C' || c == '\r'

/-- Does `hay` start with `needle`? -/
def startsWithCL : List Char → List Char → Bool
  | _, [] => true
  | [], _ :: _ => false
  | c :: cs, d :: ds => c == d && startsWithCL cs ds

/-- Does `hay` end with `needle`? -/
def endsWithCL (hay needle : List Char) : Bool :=
  startsWithCL hay.reverse needle.reverse

/-- Does `hay` contain `needle` as a contiguous substring? -/
def containsCL : List Char → List Char → Bool
  | [], needle => startsWithCL [] needle
  | c :: rest, needle => startsWithCL (c :: rest) needle || containsCL rest needle

/-! ## Summarizer (`generate_summary`, app.py lines 66-69)

`re.split(r'(?<=[.!?]) +', text)` splits at every maximal run of spaces
that is immediately preceded by one of `.`, `!`, `?`; the spaces of the
run are consumed. `ssAux` is that scan as a character-by-character state
machine: `skip` means we are inside a delimiter run of spaces, `prevPunct`
records whether the previous character was sentence punctuation. -/

/-- Sentence-ending punctuation of the source regex. -/
def isPunct (c : Char) : Bool := c == '.' || c == '!' || c == '?'

/-- Prepend a character onto the first unit of a split result. -/
def prependU (c : Char) : List (List Char) → List (List Char)
  | [] => [[c]]
  | u :: us => (c :: u) :: us

/-- State machine for `re.split(r'(?<=[.!?]) +', text)`. -/
def ssAux (skip prevPunct : Bool) : List Char → List (List Char)
  | [] => [[]]
  | c :: rest =>
    if skip then
      if c == ' ' then ssAux true false rest
      else prependU c (ssAux false (isPunct c) rest)
    else if prevPunct && c == ' ' then
      [] :: ssAux true false rest
    else prependU c (ssAux false (isPunct c) rest)

/-- The sentence units of `text`, per the source regex split. -/
def splitSent (text : List Char) : List (List Char) := ssAux false false text

/-- `" ".join(units)`: join with a single space, as in the source. -/
def joinU : List (List Char) → List Char
  | [] => []
  | [u] => u
  | u :: v :: rest => u ++ ' ' :: joinU (v :: rest)

/-- `generate_summary(text, max_sentences)`: join of the first
`max_sentences` sentence units. -/
def generate_summary (text : List Char) (max_sentences : Nat) : List Char :=
  joinU ((splitSent text).take max_sentences)

/-! ## Keyword extractor (`extract_keywords`, app.py lines 71-86) -/

/-- The fixed stopword set of the source. -/
def stopwords : List String :=
  ["the", "is", "and", "in", "of", "to", "a", "on", "for", "as", "by", "with",
   "an", "it", "this", "that", "are", "be", "or", "from", "at", "was", "were",
   "you", "your"]

/-- The stopwords as character lists. -/
def stopwordLists : List (List Char) := stopwords.map String.toList

/-- The filter of step `if w not in stopwords and len(w) > 3`. -/
def keptWord (w : List Char) : Bool :=
  decide (w ∉ stopwordLists ∧ 3 < w.length)

/-- `re.sub(r"[^a-zA-Z0-9 ]", " ", ·)` on one character: keep
alphanumerics and the space, replace everything else by a space. -/
def subChar (c : Char) : Char :=
  if ('a' ≤ c ∧ c ≤ 'z') ∨ ('A' ≤ c ∧ c ≤ 'Z') ∨ ('0' ≤ c ∧ c ≤ '9') ∨ c = ' '
  then c else ' '

/-- `text.lower()` then the alphanumeric-and-space substitution. -/
def normalizeText (text : List Char) : List Char :=
  (text.map pyToLower).map subChar

/-- Helper for `str.split()`: split on whitespace runs, dropping empties;
`acc` holds the current word reversed. -/
def splitWordsAux (acc : List Char) : List Char → List (List Char)
  | [] => if acc.isEmpty then [] else [acc.reverse]
  | c :: rest =>
    if pyIsSpace c then
      if acc.isEmpty then splitWordsAux [] rest
      else acc.reverse :: splitWordsAux [] rest
    else splitWordsAux (c :: acc) rest

/-- Python `text.split()`. -/
def splitWords (text : List Char) : List (List Char) := splitWordsAux [] text

/-- The tokens that survive the stopword / length filter; the frequency
dict counts exactly these. -/
def keptWords (text : List Char) : List (List Char) :=
  (splitWords (normalizeText text)).filter keptWord

/-- Keys of the frequency dict in insertion order: first occurrences,
duplicates dropped. `seen` accumulates the keys already emitted. -/
def dedupFirstAux (seen : List (List Char)) : List (List Char) → List (List Char)
  | [] => []
  | w :: ws =>
    if w ∈ seen then dedupFirstAux seen ws
    else w :: dedupFirstAux (w :: seen) ws

/-- First-occurrence deduplication (Python dict key order). -/
def dedupFirst (ws : List (List Char)) : List (List Char) := dedupFirstAux [] ws

/-- Stable descending insertion: place `a` before the first element whose
key is ≤ `key a`. Combined with the right-to-left fold of `sortByDesc`
this reproduces Python `sorted(·, key=·, reverse=True)` (a stable sort
read descending: ties stay in original order). -/
def insertDesc (key : α → Nat) (a : α) : List α → List α
  | [] => [a]
  | b :: l => if key b ≤ key a then a :: b :: l else b :: insertDesc key a l

/-- Stable descending sort by `key` (Python `sorted(·, key=·, reverse=True)`). -/
def sortByDesc (key : α → Nat) : List α → List α
  | [] => []
  | a :: l => insertDesc key a (sortByDesc key l)

/-- The ranked keyword list before truncation: distinct kept tokens in
first-occurrence order, stably sorted by descending frequency. -/
def rankedKeywords (text : List Char) : List (List Char) :=
  sortByDesc (fun w => (keptWords text).count w) (dedupFirst (keptWords text))

/-- `extract_keywords(text, max_keywords)`. -/
def extract_keywords (text : List Char) (max_keywords : Nat) : List (List Char) :=
  (rankedKeywords text).take max_keywords

/-! ## Context gate (`has_enough_context`, app.py lines 88-90) -/

/-- Python `text.strip()`: drop leading and trailing whitespace. -/
def pyStrip (s : List Char) : List Char :=
  ((s.dropWhile pyIsSpace).reverse.dropWhile pyIsSpace).reverse

/-- `has_enough_context(text, min_length)`: `len(text.strip()) >= min_length`. -/
def has_enough_context (text : List Char) (min_length : Nat) : Bool :=
  decide (min_length ≤ (pyStrip text).length)

/-! ## Text extractor (`extract_text_from_file`, app.py lines 45-64)

The two PDF-parsing libraries are external collaborators; they are
modelled as fallible functions from the document bytes to a list of
per-page optional texts (`p.extract_text()` may yield `None`, rendered
as `""` by `or ""` in the source). The non-PDF branch decodes with
`errors="ignore"`, which cannot fail, so it is a total function input. -/

/-- `"\n".join(page.extract_text() or "" for page in pages)`. -/
def joinPages (pages : List (Option String)) : String :=
  String.intercalate "\n" (pages.map (fun p => p.getD ""))

/-- `uploaded_file.name.lower().endswith(".pdf")`. -/
def isPdfName (name : String) : Bool :=
  endsWithCL (name.toList.map pyToLower) ".pdf".toList

/-- `extract_text_from_file` under the idealization that `read()` yields
the document bytes every time it is called: primary parser, bare-except
fallback to the secondary parser, outer except returning the empty
string. The source does not honor this idealization (see
`extract_text_from_stream`), but for the soft-fail contract the
difference is immaterial: every failure path still ends in `""`. -/
def extract_text_from_file
    (primary secondary : List Nat → Except Unit (List (Option String)))
    (decodeIgnore : List Nat → String)
    (name : String) (content : List Nat) : String :=
  if isPdfName name then
    match primary content with
    | Except.ok pages => joinPages pages
    | Except.error _ =>
      match secondary content with
      | Except.ok pages => joinPages pages
      | Except.error _ => ""
  else decodeIgnore content

/-- A Streamlit UploadedFile is a BytesIO-like stream: `read()` returns
the bytes from the current position onward and leaves the position at
the end of the buffer, so a second `read()` of a consumed stream yields
no bytes; `getvalue()` returns the whole buffer regardless of position. -/
structure FileStream where
  data : List Nat
  pos : Nat

/-- `uploaded_file.read()`: the remaining bytes, and the stream after. -/
def readAll (f : FileStream) : List Nat × FileStream :=
  (f.data.drop f.pos, ⟨f.data, f.data.length⟩)

/-- `extract_text_from_file` with the stream statefulness of the source
kept: the first `read()` (app.py line 50) consumes the stream, and the
fallback (line 54) calls `read()` again, so the secondary parser
receives the remaining bytes of the consumed stream, not the document.
The non-PDF branch uses `getvalue()`, which is position-independent. -/
def extract_text_from_stream
    (primary secondary : List Nat → Except Unit (List (Option String)))
    (decodeIgnore : List Nat → String)
    (name : String) (f : FileStream) : String :=
  if isPdfName name then
    let r1 := readAll f
    match primary r1.1 with
    | Except.ok pages => joinPages pages
    | Except.error _ =>
      match secondary (readAll r1.2).1 with
      | Except.ok pages => joinPages pages
      | Except.error _ => ""
  else decodeIgnore f.data

/-! ## Quiz client (`generate_questions`, app.py lines 95-100) -/

/-- `generate_questions`: the external `model.generate_content` call is
modelled as an `Except` input; on success the response text is returned
unchanged, on any exception the error string is returned instead. -/
def generate_questions (callResult : Except String String) : String :=
  match callResult with
  | Except.ok t => t
  | Except.error e => "Error generating questions: " ++ e

/-! ## Prompt builder, keyword path (app.py lines 159-170) -/

/-- The keyword-path prompt f-string with `combined_topic = ", ".join(keywords)`. -/
def buildKeywordPrompt (num_questions : Nat) (keywords : List String)
    (difficulty : String) : String :=
  "\nGenerate " ++ toString num_questions ++ " multiple-choice questions on:\n"
    ++ String.intercalate ", " keywords
    ++ "\n\nDifficulty: " ++ difficulty
    ++ "\n\nRequirements:\n- 4 options per question (A–D)\n- Mention correct answer at the end\n"

/-! ## Well-formedness predicates for sentence-split outputs

These describe the shape of every list of units produced by `splitSent`;
they drive the proofs about `generate_summary`. -/

/-- No internal sentence boundary: nowhere inside the unit does a space
follow one of `.`, `!`, `?`. -/
def clean : List Char → Bool
  | [] => true
  | [_] => true
  | c :: d :: rest => !(isPunct c && d == ' ') && clean (d :: rest)

/-- The unit ends with sentence punctuation. -/
def endsPunct (u : List Char) : Bool :=
  match u.getLast? with
  | some c => isPunct c
  | none => false

/-- The unit does not start with a space. -/
def leadOK : List Char → Bool
  | [] => true
  | c :: _ => !(c == ' ')

/-- The first unit of the list does not start with a space. -/
def headLeadOK : List (List Char) → Bool
  | [] => true
  | u :: _ => leadOK u

/-- An empty first unit occurs only alone. -/
def emptyHeadSolo : List (List Char) → Bool
  | [] :: _ :: _ => false
  | _ => true

/-- Well-formed split output: every unit is clean, every non-last unit
ends with punctuation, every non-first unit does not start with a space. -/
def unitsOK : List (List Char) → Bool
  | [] => false
  | [u] => clean u
  | u :: us => clean u && endsPunct u && headLeadOK us && unitsOK us

/-- Like `unitsOK`, but when `pend` is true an empty first unit may be
followed by further units: the punctuation closing it is still pending
in the caller of `ssAux`, which will prepend it. -/
def unitsOKx (pend : Bool) : List (List Char) → Bool
  | [] => false
  | [u] => clean u
  | u :: us => clean u && (if u.isEmpty then pend else endsPunct u)
      && headLeadOK us && unitsOK us

/-! # Lemmas -/

theorem startsWithCL_append (p r : List Char) : startsWithCL (p ++ r) p = true := by
  induction p with
  | nil => cases r <;> rfl
  | cons c cs ih => simp [startsWithCL, ih]

theorem insertDesc_perm (key : α → Nat) (a : α) (l : List α) :
    (insertDesc key a l).Perm (a :: l) := by
  induction l with
  | nil => simp [insertDesc]
  | cons b l ih =>
    by_cases h : key b ≤ key a
    · simp [insertDesc, h]
    · simp only [insertDesc, if_neg h]
      exact (List.Perm.cons b ih).trans (List.Perm.swap a b l)

theorem sortByDesc_perm (key : α → Nat) (l : List α) : (sortByDesc key l).Perm l := by
  induction l with
  | nil => simp [sortByDesc]
  | cons a l ih =>
    exact (insertDesc_perm key a (sortByDesc key l)).trans (List.Perm.cons a ih)

theorem mem_dedupFirstAux {x : List Char} :
    ∀ (l seen : List (List Char)), x ∈ dedupFirstAux seen l → x ∈ l := by
  intro l
  induction l with
  | nil =>
    intro seen h
    simp [dedupFirstAux] at h
  | cons w ws ih =>
    intro seen h
    by_cases hw : w ∈ seen
    · simp only [dedupFirstAux, if_pos hw] at h
      exact List.mem_cons_of_mem w (ih seen h)
    · simp only [dedupFirstAux, if_neg hw] at h
      rcases List.mem_cons.mp h with h | h
      · exact h ▸ List.mem_cons_self w ws
      · exact List.mem_cons_of_mem w (ih (w :: seen) h)

theorem dedupFirstAux_avoid {x : List Char} :
    ∀ (l seen : List (List Char)), x ∈ seen → x ∉ dedupFirstAux seen l := by
  intro l
  induction l with
  | nil =>
    intro seen _ h
    simp [dedupFirstAux] at h
  | cons w ws ih =>
    intro seen hx h
    by_cases hw : w ∈ seen
    · simp only [dedupFirstAux, if_pos hw] at h
      exact ih seen hx h
    · simp only [dedupFirstAux, if_neg hw] at h
      rcases List.mem_cons.mp h with h | h
      · exact hw (h ▸ hx)
      · exact ih (w :: seen) (List.mem_cons_of_mem w hx) h

theorem dedupFirstAux_nodup :
    ∀ (l seen : List (List Char)), (dedupFirstAux seen l).Nodup := by
  intro l
  induction l with
  | nil =>
    intro seen
    simp [dedupFirstAux]
  | cons w ws ih =>
    intro seen
    by_cases hw : w ∈ seen
    · simpa only [dedupFirstAux, if_pos hw] using ih seen
    · simp only [dedupFirstAux, if_neg hw]
      exact List.nodup_cons.mpr
        ⟨dedupFirstAux_avoid ws (w :: seen) (List.mem_cons_self w seen), ih (w :: seen)⟩

theorem filter_insertDesc (key : α → Nat) (c : Nat) (a : α) (l : List α) :
    (insertDesc key a l).filter (fun x => key x == c)
      = if key a == c then a :: l.filter (fun x => key x == c)
        else l.filter (fun x => key x == c) := by
  induction l with
  | nil =>
    by_cases hc : key a == c <;> simp [insertDesc, List.filter, hc]
  | cons b l ih =>
    by_cases h : key b ≤ key a
    · by_cases hc : key a == c <;> simp [insertDesc, h, List.filter_cons, hc]
    · simp only [insertDesc, if_neg h, List.filter_cons, ih]
      by_cases hac : key a == c
      · have hab : key a < key b := Nat.lt_of_not_le h
        have hbc : (key b == c) = false := by
          have hac' : key a = c := by simpa using hac
          have : key b ≠ c := by omega
          simpa using this
        simp [hac, hbc, List.filter_cons]
      · simp [hac, List.filter_cons]

theorem filter_sortByDesc (key : α → Nat) (c : Nat) (l : List α) :
    (sortByDesc key l).filter (fun x => key x == c)
      = l.filter (fun x => key x == c) := by
  induction l with
  | nil => rfl
  | cons a l ih =>
    simp only [sortByDesc, filter_insertDesc, ih, List.filter_cons]

/-! ### Sentence-splitter lemmas -/

theorem ssAux_skip_space {c : Char} (p : Bool) (rest : List Char) (hc : c = ' ') :
    ssAux true p (c :: rest) = ssAux true false rest := by
  simp [ssAux, hc]

theorem ssAux_skip_other {c : Char} (p : Bool) (rest : List Char) (hc : ¬ c = ' ') :
    ssAux true p (c :: rest) = prependU c (ssAux false (isPunct c) rest) := by
  simp [ssAux, hc]

theorem ssAux_delim {c : Char} (rest : List Char) (hc : c = ' ') :
    ssAux false true (c :: rest) = [] :: ssAux true false rest := by
  simp [ssAux, hc]

theorem ssAux_step {c : Char} {p : Bool} (rest : List Char)
    (h : p = false ∨ ¬ c = ' ') :
    ssAux false p (c :: rest) = prependU c (ssAux false (isPunct c) rest) := by
  rcases h with h | h
  · simp [ssAux, h]
  · simp [ssAux, h]

theorem prependU_ne_nil (c : Char) (us : List (List Char)) : prependU c us ≠ [] := by
  cases us <;> simp [prependU]

theorem ssAux_ne_nil : ∀ (l : List Char) (s p : Bool), ssAux s p l ≠ [] := by
  intro l
  induction l with
  | nil =>
    intro s p
    simp [ssAux]
  | cons c rest ih =>
    intro s p
    by_cases hc : c = ' '
    · cases s
      · cases hp : p
        · rw [ssAux_step rest (Or.inl rfl)]
          exact prependU_ne_nil _ _
        · rw [ssAux_delim rest hc]
          simp
      · rw [ssAux_skip_space _ _ hc]
        exact ih true false
    · cases s
      · rw [ssAux_step rest (Or.inr hc)]
        exact prependU_ne_nil _ _
      · rw [ssAux_skip_other _ _ hc]
        exact prependU_ne_nil _ _

theorem joinU_prependU (c : Char) (us : List (List Char)) :
    joinU (prependU c us) = c :: joinU us := by
  match us with
  | [] => rfl
  | [u] => rfl
  | u :: v :: rest => simp [prependU, joinU]

theorem joinU_length_cons (u : List Char) (us : List (List Char)) :
    (joinU (u :: us)).length
      = u.length + (if us = [] then 0 else 1 + (joinU us).length) := by
  match us with
  | [] => simp [joinU]
  | v :: rest =>
    simp [joinU]
    omega

theorem joinU_ssAux_length : ∀ (l : List Char) (s p : Bool),
    (joinU (ssAux s p l)).length ≤ l.length := by
  intro l
  induction l with
  | nil =>
    intro s p
    simp [ssAux, joinU]
  | cons c rest ih =>
    intro s p
    by_cases hc : c = ' '
    · cases s
      · cases hp : p
        · rw [ssAux_step rest (Or.inl rfl), joinU_prependU]
          simpa using Nat.succ_le_succ (ih false (isPunct c))
        · rw [ssAux_delim rest hc]
          rcases List.exists_cons_of_ne_nil (ssAux_ne_nil rest true false) with ⟨v, vs, hY⟩
          have hlen := ih true false
          rw [hY] at hlen ⊢
          simp only [joinU, List.nil_append, List.length_cons]
          simpa using Nat.succ_le_succ hlen
      · rw [ssAux_skip_space _ _ hc]
        exact Nat.le_succ_of_le (ih true false)
    · have hstep : ssAux s p (c :: rest) = prependU c (ssAux false (isPunct c) rest) := by
        cases s
        · exact ssAux_step rest (Or.inr hc)
        · exact ssAux_skip_other _ _ hc
      rw [hstep, joinU_prependU]
      simpa using Nat.succ_le_succ (ih false (isPunct c))

theorem joinU_take_length_le : ∀ (us : List (List Char)) (n : Nat),
    (joinU (us.take n)).length ≤ (joinU us).length := by
  intro us
  induction us with
  | nil =>
    intro n
    simp
  | cons u us ih =>
    intro n
    cases n with
    | zero => simp [joinU]
    | succ n =>
      rw [List.take_succ_cons, joinU_length_cons, joinU_length_cons]
      by_cases h : us.take n = []
      · rw [if_pos h]
        by_cases h2 : us = [] <;> simp [h2]
      · have h2 : us ≠ [] := by
          intro he
          rw [he] at h
          simp at h
        rw [if_neg h, if_neg h2]
        have := ih n
        omega

theorem isPunct_ne_space {c : Char} (h : isPunct c = true) : ¬ c = ' ' := by
  intro he
  subst he
  simp [isPunct] at h

theorem clean_cons_tail {c : Char} {u : List Char} (h : clean (c :: u) = true) :
    clean u = true := by
  match u with
  | [] => rfl
  | d :: rest =>
    rw [clean, Bool.and_eq_true] at h
    exact h.2

theorem clean_cons_head {c d : Char} {u : List Char} (h : clean (c :: d :: u) = true) :
    (isPunct c && (d == ' ')) = false := by
  rw [clean, Bool.and_eq_true] at h
  have h1 := h.1
  cases hx : (isPunct c && (d == ' '))
  · rfl
  · rw [hx] at h1
    exact absurd h1 (by decide)

theorem punct_space_false {c d : Char} (h : ¬ (isPunct c = true ∧ d = ' ')) :
    (isPunct c && (d == ' ')) = false := by
  cases hp : isPunct c
  · rfl
  · have hd : ¬ d = ' ' := fun hd => h ⟨hp, hd⟩
    simp [hd]

theorem endsPunct_cons_cons (c d : Char) (u : List Char) :
    endsPunct (c :: d :: u) = endsPunct (d :: u) := by
  simp [endsPunct, List.getLast?_cons_cons]

theorem unitsOKx_false : ∀ us, unitsOKx false us = unitsOK us := by
  intro us
  match us with
  | [] => rfl
  | [u] => rfl
  | u :: v :: rest =>
    match u with
    | [] => simp [unitsOKx, unitsOK, endsPunct]
    | c :: u' => simp [unitsOKx, unitsOK]

theorem prependU_headLeadOK {c : Char} (us : List (List Char)) (hc : ¬ c = ' ') :
    headLeadOK (prependU c us) = true := by
  cases us <;> simp [prependU, headLeadOK, leadOK, hc]

theorem unitsOK_cons₂ (u v : List Char) (rest : List (List Char)) :
    unitsOK (u :: v :: rest) = true ↔
      clean u = true ∧ endsPunct u = true ∧ headLeadOK (v :: rest) = true ∧
        unitsOK (v :: rest) = true := by
  rw [show unitsOK (u :: v :: rest)
      = (clean u && endsPunct u && headLeadOK (v :: rest) && unitsOK (v :: rest)) from rfl]
  simp [Bool.and_eq_true, and_assoc]

theorem unitsOKx_cons₂ (pend : Bool) (u v : List Char) (rest : List (List Char)) :
    unitsOKx pend (u :: v :: rest) = true ↔
      clean u = true ∧ (if u.isEmpty then pend else endsPunct u) = true ∧
        headLeadOK (v :: rest) = true ∧ unitsOK (v :: rest) = true := by
  rw [show unitsOKx pend (u :: v :: rest)
      = (clean u && (if u.isEmpty then pend else endsPunct u)
          && headLeadOK (v :: rest) && unitsOK (v :: rest)) from rfl]
  simp [Bool.and_eq_true, and_assoc]

theorem prependU_case (c : Char) (rest : List Char)
    (ih : ∀ s p, unitsOKx (!s && p) (ssAux s p rest) = true ∧
      (s = true → headLeadOK (ssAux s p rest) = true)) :
    ∀ b, unitsOKx b (prependU c (ssAux false (isPunct c) rest)) = true := by
  intro b
  have hX : unitsOKx (isPunct c) (ssAux false (isPunct c) rest) = true := by
    simpa using (ih false (isPunct c)).1
  match rest with
  | [] => simp [ssAux, prependU, unitsOKx, clean]
  | d :: rest2 =>
    by_cases hdelim : isPunct c = true ∧ d = ' '
    · have hX2 : ssAux false (isPunct c) (d :: rest2) = [] :: ssAux true false rest2 := by
        rw [hdelim.1]
        exact ssAux_delim rest2 hdelim.2
      rcases List.exists_cons_of_ne_nil (ssAux_ne_nil rest2 true false) with ⟨w, vs, hY⟩
      rw [hX2, hY, unitsOKx_cons₂] at hX
      obtain ⟨-, hpc, hhl, huo⟩ := hX
      simp only [List.isEmpty_nil, if_true] at hpc
      have hr : prependU c (ssAux false (isPunct c) (d :: rest2)) = [c] :: w :: vs := by
        rw [hX2, hY]
        rfl
      rw [hr, unitsOKx_cons₂]
      refine ⟨rfl, ?_, hhl, huo⟩
      simpa [endsPunct] using hpc
    · have h' : isPunct c = false ∨ ¬ d = ' ' := by
        cases hp : isPunct c
        · exact Or.inl rfl
        · exact Or.inr fun hd => hdelim ⟨hp, hd⟩
      have hX2 : ssAux false (isPunct c) (d :: rest2)
          = prependU d (ssAux false (isPunct d) rest2) := ssAux_step rest2 h'
      rcases List.exists_cons_of_ne_nil (ssAux_ne_nil rest2 false (isPunct d)) with ⟨w, ws, hW⟩
      have hX3 : ssAux false (isPunct c) (d :: rest2) = (d :: w) :: ws := by
        rw [hX2, hW]
        rfl
      rw [hX3] at hX
      have hr : prependU c (ssAux false (isPunct c) (d :: rest2)) = (c :: d :: w) :: ws := by
        rw [hX3]
        rfl
      rw [hr]
      match ws, hX with
      | [], hX =>
        have hcl : clean (d :: w) = true := hX
        show clean (c :: d :: w) = true
        rw [clean, Bool.and_eq_true]
        exact ⟨by simp [punct_space_false hdelim], hcl⟩
      | z :: ws', hX =>
        rw [unitsOKx_cons₂] at hX
        obtain ⟨hcl, hep, hhl, huo⟩ := hX
        simp only [List.isEmpty_cons] at hep
        rw [unitsOKx_cons₂]
        refine ⟨?_, ?_, hhl, huo⟩
        · rw [clean, Bool.and_eq_true]
          exact ⟨by simp [punct_space_false hdelim], hcl⟩
        · simp only [List.isEmpty_cons]
          rw [if_neg (by simp), endsPunct_cons_cons]
          rw [if_neg (by simp)] at hep
          exact hep

theorem ssAux_invariant : ∀ (l : List Char) (s p : Bool),
    unitsOKx (!s && p) (ssAux s p l) = true ∧
    (s = true → headLeadOK (ssAux s p l) = true) := by
  intro l
  induction l with
  | nil =>
    intro s p
    refine ⟨by simp [ssAux, unitsOKx, clean], ?_⟩
    intro _
    simp [ssAux, headLeadOK, leadOK]
  | cons c rest ih =>
    intro s p
    by_cases hc : c = ' '
    · cases s
      · cases hp : p
        · rw [ssAux_step rest (Or.inl rfl)]
          exact ⟨prependU_case c rest ih _, by intro h; cases h⟩
        · rw [ssAux_delim rest hc]
          refine ⟨?_, by intro h; cases h⟩
          rcases List.exists_cons_of_ne_nil (ssAux_ne_nil rest true false) with ⟨w, vs, hY⟩
          have hhl : headLeadOK (ssAux true false rest) = true := (ih true false).2 rfl
          have huo : unitsOK (ssAux true false rest) = true := by
            have h := (ih true false).1
            rwa [show (!true && false) = false from rfl, unitsOKx_false] at h
          rw [hY] at hhl huo ⊢
          rw [unitsOKx_cons₂]
          exact ⟨rfl, by simp, hhl, huo⟩
      · rw [ssAux_skip_space _ _ hc]
        refine ⟨?_, fun _ => (ih true false).2 rfl⟩
        have h := (ih true false).1
        simpa using h
    · have hstep : ssAux s p (c :: rest) = prependU c (ssAux false (isPunct c) rest) := by
        cases s
        · exact ssAux_step rest (Or.inr hc)
        · exact ssAux_skip_other _ _ hc
      rw [hstep]
      exact ⟨prependU_case c rest ih _, fun _ => prependU_headLeadOK _ hc⟩

theorem splitSent_unitsOK (l : List Char) : unitsOK (splitSent l) = true := by
  have h := (ssAux_invariant l false false).1
  rwa [show (!false && false) = false from rfl, unitsOKx_false] at h

theorem leadOK_tail_of_clean {c : Char} {u : List Char}
    (hcl : clean (c :: u) = true) (hpc : isPunct c = true) : leadOK u = true := by
  match u with
  | [] => rfl
  | d :: rest =>
    have h := clean_cons_head hcl
    rw [hpc, Bool.true_and] at h
    simp [leadOK, h]

theorem ssAux_of_clean : ∀ (u : List Char) (p : Bool), clean u = true →
    (p = true → leadOK u = true) → ssAux false p u = [u] := by
  intro u
  induction u with
  | nil =>
    intro p _ _
    rfl
  | cons c rest ih =>
    intro p hcl hlead
    have hstep : ssAux false p (c :: rest) = prependU c (ssAux false (isPunct c) rest) := by
      apply ssAux_step
      cases hp : p
      · exact Or.inl rfl
      · right
        intro he
        have hl := hlead hp
        rw [he] at hl
        simp [leadOK] at hl
    rw [hstep, ih (isPunct c) (clean_cons_tail hcl) (fun hpc => leadOK_tail_of_clean hcl hpc)]
    rfl

theorem endsPunct_single (c : Char) : endsPunct [c] = isPunct c := by
  simp [endsPunct]

theorem ssAux_append_space : ∀ (u : List Char) (p : Bool) (t : List Char),
    clean u = true → endsPunct u = true → (p = true → leadOK u = true) →
    ssAux false p (u ++ ' ' :: t) = u :: ssAux true false t := by
  intro u
  induction u with
  | nil =>
    intro p t _ hep _
    simp [endsPunct] at hep
  | cons c rest ih =>
    intro p t hcl hep hlead
    have hcs : ¬ c = ' ' ∨ p = false := by
      cases hp : p
      · exact Or.inr rfl
      · left
        intro he
        have hl := hlead hp
        rw [he] at hl
        simp [leadOK] at hl
    cases rest with
    | nil =>
      have hpc : isPunct c = true := by rwa [endsPunct_single] at hep
      show ssAux false p (c :: ' ' :: t) = [c] :: ssAux true false t
      rw [ssAux_step (' ' :: t) (Or.symm hcs), hpc, ssAux_delim t rfl]
      rfl
    | cons d rest2 =>
      have hep' : endsPunct (d :: rest2) = true := by
        rwa [endsPunct_cons_cons] at hep
      show ssAux false p (c :: ((d :: rest2) ++ ' ' :: t)) = (c :: d :: rest2) :: ssAux true false t
      rw [ssAux_step _ (Or.symm hcs),
        ih (isPunct c) t (clean_cons_tail hcl) hep' (fun hpc => leadOK_tail_of_clean hcl hpc)]
      rfl

theorem ssAux_skip_eq : ∀ (t : List Char), leadOK t = true →
    ssAux true false t = ssAux false false t := by
  intro t ht
  match t with
  | [] => rfl
  | c :: rest =>
    have hc : ¬ c = ' ' := by
      intro he
      rw [he] at ht
      simp [leadOK] at ht
    rw [ssAux_skip_other _ _ hc, ssAux_step rest (Or.inl rfl)]

theorem joinU_leadOK : ∀ (us : List (List Char)), unitsOK us = true →
    headLeadOK us = true → leadOK (joinU us) = true := by
  intro us h hh
  cases us with
  | nil => exact absurd h (by decide)
  | cons u us' =>
    cases us' with
    | nil => exact hh
    | cons v rest =>
      cases u with
      | nil =>
        rw [unitsOK_cons₂] at h
        obtain ⟨-, hep, -, -⟩ := h
        simp [endsPunct] at hep
      | cons c u' => exact hh

theorem splitSent_joinU : ∀ (us : List (List Char)), unitsOK us = true →
    splitSent (joinU us) = us := by
  intro us
  induction us with
  | nil =>
    intro h
    exact absurd h (by decide)
  | cons u us' ih =>
    intro h
    cases us' with
    | nil =>
      show ssAux false false u = [u]
      exact ssAux_of_clean u false h (fun hh => Bool.noConfusion hh)
    | cons v rest =>
      rw [unitsOK_cons₂] at h
      obtain ⟨hcl, hep, hhl, huo⟩ := h
      show ssAux false false (joinU (u :: v :: rest)) = u :: v :: rest
      rw [show joinU (u :: v :: rest) = u ++ ' ' :: joinU (v :: rest) from rfl]
      rw [ssAux_append_space u false (joinU (v :: rest)) hcl hep (fun hh => Bool.noConfusion hh)]
      rw [ssAux_skip_eq _ (joinU_leadOK _ huo hhl)]
      rw [show ssAux false false (joinU (v :: rest)) = splitSent (joinU (v :: rest)) from rfl]
      rw [ih huo]

theorem unitsOK_take : ∀ (us : List (List Char)) (n : Nat), unitsOK us = true →
    unitsOK (us.take (n + 1)) = true := by
  intro us
  induction us with
  | nil =>
    intro n h
    exact absurd h (by decide)
  | cons u us' ih =>
    intro n h
    cases us' with
    | nil => simpa using h
    | cons v rest =>
      rw [List.take_succ_cons]
      cases n with
      | zero =>
        rw [List.take_zero]
        rw [unitsOK_cons₂] at h
        exact h.1
      | succ m =>
        rw [unitsOK_cons₂] at h
        obtain ⟨hcl, hep, hhl, huo⟩ := h
        rw [List.take_succ_cons, unitsOK_cons₂]
        refine ⟨hcl, hep, hhl, ?_⟩
        have hm := ih m huo
        rwa [List.take_succ_cons] at hm

/-! # Claim theorems -/

/-- C2: `has_enough_context(T, m)` is true iff the length of `T` after
stripping leading and trailing whitespace is at least `m`; in particular
it is true when the trimmed length equals `m` exactly. -/
theorem has_enough_context_iff_trimmed (T : List Char) (m : Nat) :
    (has_enough_context T m = true ↔ m ≤ (pyStrip T).length) ∧
    ((pyStrip T).length = m → has_enough_context T m = true) := by
  constructor
  · simp [has_enough_context]
  · intro h
    simp [has_enough_context, h]

/-- Witness for C2 at a concrete boundary input: `" abc "` trims to
exactly length 3, and the gate accepts it at threshold 3. -/
theorem has_enough_context_iff_trimmed_witness :
    has_enough_context " abc ".toList 3 = true :=
  (has_enough_context_iff_trimmed " abc ".toList 3).2 (by decide)

/-- C4: the claim fails on the code as written. Take a freshly uploaded
PDF (stream position 0, document bytes `[37, 80, 68, 70]`), a primary
parser that raises on it, and a secondary parser that succeeds with the
non-empty text "hello" on the document bytes but raises on empty input
(as PyPDF2 does on an empty stream). The fallback re-reads the stream
already consumed by the primary attempt, so the secondary parser
receives no bytes and the function returns `""`, not the secondary
parser's non-empty text. -/
theorem extract_text_stream_double_read_bug :
    extract_text_from_stream (fun _ => Except.error ())
      (fun bytes => if bytes.isEmpty then Except.error ()
        else Except.ok [some "hello"])
      (fun _ => "") "doc.pdf" ⟨[37, 80, 68, 70], 0⟩ = "" ∧
    (if ([37, 80, 68, 70] : List Nat).isEmpty then
        (Except.error () : Except Unit (List (Option String)))
      else Except.ok [some "hello"]) = Except.ok [some "hello"] ∧
    joinPages [some "hello"] ≠ "" :=
  ⟨rfl, rfl, by decide⟩

/-- C7: `extract_text_from_file` never raises past its boundary (it is a
total function of its inputs in this embedding): when the document is a
PDF and both parsing strategies fail it returns the empty string, and a
non-PDF upload returns the ignore-errors decoding, which cannot fail. -/
theorem extract_text_soft_fail
    (primary secondary : List Nat → Except Unit (List (Option String)))
    (decodeIgnore : List Nat → String) (name : String) (content : List Nat) :
    (isPdfName name = true → primary content = Except.error () →
      secondary content = Except.error () →
      extract_text_from_file primary secondary decodeIgnore name content = "") ∧
    (isPdfName name = false →
      extract_text_from_file primary secondary decodeIgnore name content
        = decodeIgnore content) := by
  constructor
  · intro h1 h2 h3
    simp [extract_text_from_file, h1, h2, h3]
  · intro h
    simp [extract_text_from_file, h]

/-- Witness for C7: both parsers fail on a PDF name, the result is `""`. -/
theorem extract_text_soft_fail_witness :
    extract_text_from_file (fun _ => Except.error ()) (fun _ => Except.error ())
      (fun _ => "x") "bad.pdf" [] = "" :=
  (extract_text_soft_fail _ _ _ "bad.pdf" []).1 (by decide) rfl rfl

/-- C5: `generate_questions` never propagates a failure of the external
generative call: on success it returns the response text unchanged, and
on any exception it returns a string carrying the identifiable indicator
`"Error generating questions: "` followed by the failure description. -/
theorem generate_questions_ok_or_error_string :
    (∀ t, generate_questions (Except.ok t) = t) ∧
    (∀ e, startsWithCL (generate_questions (Except.error e)).toList
        "Error generating questions: ".toList = true) := by
  constructor
  · intro t
    rfl
  · intro e
    show startsWithCL ("Error generating questions: " ++ e).toList _ = true
    have h : ("Error generating questions: " ++ e).toList
        = "Error generating questions: ".toList ++ e.toList := by
      simp [String.toList]
    rw [h]
    exact startsWithCL_append _ _

/-- C6: the keyword-path prompt built from the keyword list
photosynthesis, chlorophyll, glucose with question count 3 and
difficulty "easy" literally contains the substrings "3", "easy", and
each of the three keywords verbatim. -/
theorem keyword_prompt_contains_params :
    containsCL (buildKeywordPrompt 3 ["photosynthesis", "chlorophyll", "glucose"]
        "easy").toList "3".toList = true ∧
    containsCL (buildKeywordPrompt 3 ["photosynthesis", "chlorophyll", "glucose"]
        "easy").toList "easy".toList = true ∧
    containsCL (buildKeywordPrompt 3 ["photosynthesis", "chlorophyll", "glucose"]
        "easy").toList "photosynthesis".toList = true ∧
    containsCL (buildKeywordPrompt 3 ["photosynthesis", "chlorophyll", "glucose"]
        "easy").toList "chlorophyll".toList = true ∧
    containsCL (buildKeywordPrompt 3 ["photosynthesis", "chlorophyll", "glucose"]
        "easy").toList "glucose".toList = true := by
  decide

/-- C1: every token returned by `extract_keywords(T, k)` has length
strictly greater than 3 and is not in the fixed stopword set; the
returned list has at most `k` elements and its elements are pairwise
distinct. -/
theorem extract_keywords_filtered_bounded_nodup (T : List Char) (k : Nat) :
    (∀ w ∈ extract_keywords T k, 3 < w.length ∧ w ∉ stopwordLists) ∧
    (extract_keywords T k).length ≤ k ∧
    (extract_keywords T k).Nodup := by
  refine ⟨?_, List.length_take_le k _, ?_⟩
  · intro w hw
    have h1 : w ∈ rankedKeywords T := List.mem_of_mem_take hw
    have h2 : w ∈ dedupFirst (keptWords T) := (sortByDesc_perm _ _).mem_iff.mp h1
    have h3 : w ∈ keptWords T := mem_dedupFirstAux _ _ h2
    have h4 := of_decide_eq_true (List.mem_filter.mp h3).2
    exact ⟨h4.2, h4.1⟩
  · have hnd : (rankedKeywords T).Nodup :=
      (sortByDesc_perm _ _).symm.nodup (dedupFirstAux_nodup _ _)
    exact (List.take_sublist k _).nodup hnd

/-- C8: `extract_keywords` is deterministic including the relative order
of tokens with tied frequencies: the result is the truncation of one
fixed ranked list, and within every frequency class the ranked list
keeps tokens in first-occurrence order (stability of the embedded sort,
matching the documented stability of Python sorted with reverse=True). -/
theorem extract_keywords_deterministic_stable (T : List Char) (k : Nat) :
    extract_keywords T k = (rankedKeywords T).take k ∧
    ∀ c : Nat, (rankedKeywords T).filter (fun w => (keptWords T).count w == c)
      = (dedupFirst (keptWords T)).filter (fun w => (keptWords T).count w == c) :=
  ⟨rfl, fun c => filter_sortByDesc _ c _⟩

/-- C10: `extract_keywords` is prefix-monotone in its bound: for
`k1 ≤ k2` the `k1`-list is exactly the first `k1` elements of the
`k2`-list, both being truncations of the same ranked list. -/
theorem extract_keywords_take_mono (T : List Char) (k1 k2 : Nat) (h : k1 ≤ k2) :
    extract_keywords T k1 = (extract_keywords T k2).take k1 := by
  unfold extract_keywords
  rw [List.take_take, Nat.min_eq_left h]

/-- Witness for C10 on a concrete text at bounds 1 ≤ 3. -/
theorem extract_keywords_take_mono_witness :
    extract_keywords "alpha beta alpha gamma beta zeta".toList 1
      = (extract_keywords "alpha beta alpha gamma beta zeta".toList 3).take 1 :=
  extract_keywords_take_mono "alpha beta alpha gamma beta zeta".toList 1 3 (by decide)

/-- C3: `generate_summary(T, n)` is the join of the first `n` sentence
units of `T` -- as produced by the source regex split at `.`, `!`, `?`
followed by spaces -- hence consists of at most `n` units, and the
returned text never has more characters than `T` itself. -/
theorem generate_summary_units_and_length (T : List Char) (n : Nat) :
    ((splitSent T).take n).length ≤ n ∧
    generate_summary T n = joinU ((splitSent T).take n) ∧
    (generate_summary T n).length ≤ T.length := by
  refine ⟨List.length_take_le n _, rfl, ?_⟩
  calc (joinU ((splitSent T).take n)).length
      ≤ (joinU (splitSent T)).length := joinU_take_length_le _ n
    _ ≤ T.length := joinU_ssAux_length T false false

/-- C9: `generate_summary` is idempotent: summarizing its own output
with the same bound returns it unchanged, because the output's sentence
units and their separators are preserved by a second split on the same
boundary pattern. -/
theorem generate_summary_idempotent (T : List Char) (n : Nat) :
    generate_summary (generate_summary T n) n = generate_summary T n := by
  cases n with
  | zero => rfl
  | succ m =>
    have h2 : unitsOK ((splitSent T).take (m + 1)) = true :=
      unitsOK_take (splitSent T) m (splitSent_unitsOK T)
    have h3 := splitSent_joinU _ h2
    show joinU ((splitSent (joinU ((splitSent T).take (m + 1)))).take (m + 1))
        = joinU ((splitSent T).take (m + 1))
    rw [h3, List.take_of_length_le (List.length_take_le _ _)]
